import Mathlib

/-
Formal model of the identity-matching core of the Aegis-Ignis repository:

* `src/python-face-service/similarity.py` — cosine-similarity matcher
  (`calculate_similarity_matrix`, `find_best_match`);
* `src/Agent/python-face-service/cache.py` — `ThreadSafeCache`;
* `src/Agent/python-face-service/cache_service.py` —
  `parse_employee_embeddings`, `refresh_employee_cache`;
* `src/Agent/python-face-service/api_client.py` — `fetch_employees_from_api`;
* `src/python-face-service/live_floor_monitoring.py` — floor-presence tracker
  (`process_frame` presence upsert, `cleanup_old_presence`,
  `get_floor_presence`).

Python floats are modelled as `NFloat` (a rational payload extended with the
IEEE special values `inf`, `-inf` and `nan`); exact rational arithmetic stands
in for float arithmetic, and the IEEE rules the code actually exercises
(division by zero, comparisons involving `nan`, numpy's `argmax` scan) are
modelled explicitly.  `np.linalg.norm` computes a real square root, which has
no exact rational value in general; the development is therefore parametric in
a function `s : ℚ → ℚ` standing for the square root applied to a sum of
squares, so every theorem holds in particular for the floating-point square
root (a rational-valued function).  `ratSqrt` is a concrete instance that is
exact on perfect squares, used to evaluate theorems on concrete inputs.
Wall-clock instants (`datetime.now()`) are rationals measured in seconds.
-/

set_option maxRecDepth 10000

namespace AegisIgnis

/-! ## Configuration constants (config.py, live_floor_monitoring.py) -/

/-- `ServiceConfig.EXPECTED_EMBEDDING_DIM` in
`src/Agent/python-face-service/config.py`. -/
def EXPECTED_EMBEDDING_DIM : ℕ := 512

/-- `ServiceConfig.MAX_RETRIES` in `src/Agent/python-face-service/config.py`. -/
def MAX_RETRIES : ℕ := 2

/-- `ServiceConfig.CACHE_REFRESH_SECONDS` (seconds). -/
def CACHE_REFRESH_SECONDS : ℚ := 10

/-- `ServiceConfig.CACHE_STALE_THRESHOLD` (seconds). -/
def CACHE_STALE_THRESHOLD : ℚ := 60

/-- `PRESENCE_TIMEOUT` in `src/python-face-service/live_floor_monitoring.py`. -/
def PRESENCE_TIMEOUT : ℚ := 60

/-- `FACE_MATCH_THRESHOLD` in `src/python-face-service/live_floor_monitoring.py`. -/
def FACE_MATCH_THRESHOLD : ℚ := 35 / 100

/-! ## Float model -/

/-- A python/numpy double: a finite rational value or one of the IEEE special
values.  Exact rational arithmetic idealises float rounding; the special
values model the behaviour the source actually hits (division by zero in
`calculate_similarity_matrix`). -/
inductive NFloat where
  | fin (x : ℚ)
  | inf
  | ninf
  | nan
deriving DecidableEq, Repr

/-- `isNan` per IEEE. -/
def NFloat.isNan : NFloat → Bool
  | .nan => true
  | _ => false

/-- IEEE `<=` comparison as numpy evaluates it elementwise: any comparison
involving `nan` is false. -/
def fle : NFloat → NFloat → Bool
  | .nan, _ => false
  | _, .nan => false
  | .ninf, _ => true
  | _, .inf => true
  | .inf, _ => false
  | .fin _, .ninf => false
  | .fin a, .fin b => decide (a ≤ b)

/-- IEEE `>=` against a finite threshold (`max_similarity >= threshold` in
`find_best_match`); false when the left side is `nan`. -/
def fge : NFloat → ℚ → Bool
  | .fin x, t => decide (t ≤ x)
  | .inf, _ => true
  | .ninf, _ => false
  | .nan, _ => false

/-- IEEE division of two finite doubles: `0/0 = nan`, `x/0 = ±inf` for
`x ≠ 0`, otherwise exact rational division. -/
def fdiv (x y : ℚ) : NFloat :=
  if y = 0 then (if x = 0 then .nan else if 0 < x then .inf else .ninf)
  else .fin (x / y)

/-- A concrete stand-in for the floating-point square root: exact on
rationals whose numerator and denominator are perfect squares (in particular
on `0` and `1`), like the true square root is.  Used to instantiate the
square-root parameter on concrete inputs. -/
def ratSqrt (x : ℚ) : ℚ :=
  if x ≤ 0 then 0 else (Nat.sqrt x.num.toNat : ℚ) / (Nat.sqrt x.den : ℚ)

/-! ## Vector primitives (`np.dot`, `np.linalg.norm`) -/

/-- `np.dot` of two vectors. -/
def dot : List ℚ → List ℚ → ℚ
  | x :: xs, y :: ys => x * y + dot xs ys
  | _, _ => 0

/-- Sum of squares of a vector; `np.linalg.norm v` is `sqrt (sumSq v)`. -/
def sumSq (v : List ℚ) : ℚ := dot v v

/-! ## numpy argmax

`np.argmax` scans left to right keeping the running maximum `mp`; an element
replaces it exactly when `¬ (a[i] ≤ mp)`, so `nan` (for which the comparison
is false) replaces the running maximum and the scan then stops: the result is
the index of the first `nan` when one is present, and otherwise the lowest
index attaining the maximum. -/

/-- The numpy argmax scan over the tail, carrying the running maximum `mp`,
the index `i` of the element under scrutiny and the current best index. -/
def argmaxGo : List NFloat → NFloat → Nat → Nat → Nat
  | [], _, _, best => best
  | x :: xs, mp, i, best =>
    if fle x mp then argmaxGo xs mp (i + 1) best
    else if x.isNan then i else argmaxGo xs x (i + 1) i

/-- `np.argmax` on a vector of doubles.  numpy raises on an empty array; the
guard in `find_best_match` keeps this call on nonempty input, and the model
returns `0` on `[]`. -/
def npArgmax : List NFloat → Nat
  | [] => 0
  | x :: xs => if x.isNan then 0 else argmaxGo xs x 1 0

/-! ## Similarity matcher (`src/python-face-service/similarity.py`) -/

/-- `calculate_similarity_matrix` parametric in the square-root stand-in `s`
(`np.linalg.norm v = s (sumSq v)`).  With precomputed norms supplied it uses
them (`norms = precomputed_norms * query_norm`); otherwise it computes each
row norm on the fly.  Each similarity is `np.dot(matrix, q)[i] / norms[i]`,
an IEEE division. -/
def calculate_similarity_matrix (s : ℚ → ℚ) (embeddings_matrix : List (List ℚ))
    (query_embedding : List ℚ) (precomputed_norms : Option (List ℚ)) :
    List NFloat :=
  let query_norm := s (sumSq query_embedding)
  let norms : List ℚ :=
    match precomputed_norms with
    | some ns => ns.map (fun n => n * query_norm)
    | none => embeddings_matrix.map (fun r => s (sumSq r) * query_norm)
  List.zipWith fdiv (embeddings_matrix.map (fun r => dot r query_embedding)) norms

/-- `find_best_match`: guard on an empty matrix or empty info list, then
argmax of the similarity vector and the threshold gate.  Python's
`employee_info[max_idx]` is modelled with the optional index (in range on
every input the guard admits with aligned lengths). -/
def find_best_match {α : Type} (s : ℚ → ℚ) (embeddings_matrix : List (List ℚ))
    (employee_info : List α) (query_embedding : List ℚ) (threshold : ℚ)
    (precomputed_norms : Option (List ℚ)) : Option α × NFloat :=
  if embeddings_matrix.length = 0 ∨ employee_info.length = 0 then (none, .fin 0)
  else
    let similarities :=
      calculate_similarity_matrix s embeddings_matrix query_embedding precomputed_norms
    let max_idx := npArgmax similarities
    let max_similarity := similarities.getD max_idx .nan
    if fge max_similarity threshold then (employee_info[max_idx]?, max_similarity)
    else (none, max_similarity)

/-- The cosine-similarity vector as the spec describes it:
`similarity[i] = dot(matrix[i], probe) / (norms[i] * ||probe||)` with exact
(rational) division; meaningful when every denominator is nonzero. -/
def cosineSims (s : ℚ → ℚ) (embeddings_matrix : List (List ℚ))
    (query_embedding : List ℚ) : List ℚ :=
  embeddings_matrix.map
    (fun r => dot r query_embedding / (s (sumSq r) * s (sumSq query_embedding)))

/-! ## The argmax scan on finite values computes the least argmax -/

/-- The argmax scan restricted to finite values. -/
def argmaxQ : List ℚ → ℚ → Nat → Nat → Nat
  | [], _, _, best => best
  | x :: xs, mp, i, best =>
    if x ≤ mp then argmaxQ xs mp (i + 1) best else argmaxQ xs x (i + 1) i

theorem argmaxGo_map_fin (xs : List ℚ) (mp : ℚ) (i best : Nat) :
    argmaxGo (xs.map NFloat.fin) (.fin mp) i best = argmaxQ xs mp i best := by
  induction xs generalizing mp i best with
  | nil => rfl
  | cons x xs ih =>
      simp only [List.map_cons, argmaxGo, argmaxQ, fle, NFloat.isNan]
      by_cases h : x ≤ mp
      · simp [h, ih]
      · simp [h, ih]

theorem argmaxQ_spec (xs : List ℚ) (mp : ℚ) (i best : Nat) :
    (argmaxQ xs mp i best = best ∧ ∀ k, k < xs.length → xs.getD k 0 ≤ mp)
    ∨ (∃ k, k < xs.length ∧ argmaxQ xs mp i best = i + k ∧ mp < xs.getD k 0
        ∧ (∀ m, m < xs.length → xs.getD m 0 ≤ xs.getD k 0)
        ∧ (∀ m, m < k → xs.getD m 0 < xs.getD k 0)) := by
  induction xs generalizing mp i best with
  | nil =>
      left
      exact ⟨rfl, fun k hk => absurd hk (by simp)⟩
  | cons x xs ih =>
      by_cases h : x ≤ mp
      · rcases ih mp (i + 1) best with ⟨hr, hall⟩ | ⟨k, hk, hr, hgt, hle, hlt⟩
        · left
          refine ⟨by simpa [argmaxQ, h] using hr, fun k hk => ?_⟩
          match k with
          | 0 => simpa using h
          | k + 1 => exact hall k (by simpa using hk)
        · right
          refine ⟨k + 1, by simpa using hk, ?_, by simpa using hgt, ?_, ?_⟩
          · simp only [argmaxQ, if_pos h]
            omega
          · intro m hm
            match m with
            | 0 => simpa using h.trans hgt.le
            | m + 1 => simpa using hle m (by simpa using hm)
          · intro m hm
            match m with
            | 0 => simpa using lt_of_le_of_lt h hgt
            | m + 1 => simpa using hlt m (by omega)
      · push_neg at h
        rcases ih x (i + 1) i with ⟨hr, hall⟩ | ⟨k, hk, hr, hgt, hle, hlt⟩
        · right
          refine ⟨0, by simp, ?_, by simpa using h, ?_, by omega⟩
          · simp only [argmaxQ, if_neg (not_le.mpr h)]
            omega
          · intro m hm
            match m with
            | 0 => simp
            | m + 1 => simpa using hall m (by simpa using hm)
        · right
          refine ⟨k + 1, by simpa using hk, ?_, by simpa using h.trans hgt, ?_, ?_⟩
          · simp only [argmaxQ, if_neg (not_le.mpr h)]
            omega
          · intro m hm
            match m with
            | 0 => simpa using hgt.le
            | m + 1 => simpa using hle m (by simpa using hm)
          · intro m hm
            match m with
            | 0 => simpa using hgt
            | m + 1 => simpa using hlt m (by omega)

/-- On a nonempty list of finite values, `np.argmax` returns an in-range
index attaining the maximum, and every earlier element is strictly below it
(lowest-index tie-break). -/
theorem npArgmax_fin_spec (l : List ℚ) (hl : l ≠ []) :
    npArgmax (l.map NFloat.fin) < l.length ∧
    (∀ i, i < l.length → l.getD i 0 ≤ l.getD (npArgmax (l.map NFloat.fin)) 0) ∧
    (∀ i, i < npArgmax (l.map NFloat.fin) →
      l.getD i 0 < l.getD (npArgmax (l.map NFloat.fin)) 0) := by
  match l, hl with
  | x :: xs, _ =>
    have hn : npArgmax ((x :: xs).map NFloat.fin) = argmaxQ xs x 1 0 := by
      simp [npArgmax, NFloat.isNan, argmaxGo_map_fin]
    rcases argmaxQ_spec xs x 1 0 with ⟨hr, hall⟩ | ⟨k, hk, hr, hgt, hle, hlt⟩
    · rw [hn, hr]
      refine ⟨by simp, fun i hi => ?_, by omega⟩
      match i with
      | 0 => simp
      | i + 1 => simpa using hall i (by simpa using hi)
    · rw [hn, hr]
      have hjk : (x :: xs).getD (1 + k) 0 = xs.getD k 0 := by
        have : 1 + k = k + 1 := by omega
        simp [this]
      refine ⟨by simp only [List.length_cons]; omega, fun i hi => ?_, fun i hi => ?_⟩
      · rw [hjk]
        match i with
        | 0 => simpa using hgt.le
        | i + 1 => simpa using hle i (by simpa using hi)
      · rw [hjk]
        match i with
        | 0 => simpa using hgt
        | i + 1 => simpa using hlt i (by omega)

/-! ## Helper lemmas for the matcher -/

theorem zipWith_map_same {α β γ : Type} (f : β → γ → NFloat) (g : α → β)
    (h : α → γ) (l : List α) :
    List.zipWith f (l.map g) (l.map h) = l.map (fun x => f (g x) (h x)) := by
  induction l with
  | nil => rfl
  | cons x xs ih => simp [ih]

theorem getD_map_fin (l : List ℚ) (j : ℕ) (hj : j < l.length) :
    (l.map NFloat.fin).getD j NFloat.nan = NFloat.fin (l.getD j 0) := by
  induction l generalizing j with
  | nil => simp at hj
  | cons x xs ih =>
      match j with
      | 0 => rfl
      | j + 1 =>
          simp only [List.map_cons, List.getD_cons_succ]
          exact ih j (by simpa using hj)

/-- With a nonzero probe norm and nonzero row norms, the similarity vector the
code computes is exactly the (finite) cosine-similarity vector, whether the
row norms are precomputed or computed on the fly. -/
theorem calculate_similarity_matrix_eq (s : ℚ → ℚ)
    (embeddings_matrix : List (List ℚ)) (query_embedding : List ℚ)
    (precomputed_norms : Option (List ℚ))
    (hq : s (sumSq query_embedding) ≠ 0)
    (hrows : ∀ r ∈ embeddings_matrix, s (sumSq r) ≠ 0)
    (hpre : precomputed_norms = none ∨
      precomputed_norms = some (embeddings_matrix.map (fun r => s (sumSq r)))) :
    calculate_similarity_matrix s embeddings_matrix query_embedding
      precomputed_norms
      = (cosineSims s embeddings_matrix query_embedding).map NFloat.fin := by
  have hmain :
      List.zipWith fdiv
        (embeddings_matrix.map (fun r => dot r query_embedding))
        (embeddings_matrix.map
          (fun r => s (sumSq r) * s (sumSq query_embedding)))
      = (cosineSims s embeddings_matrix query_embedding).map NFloat.fin := by
    rw [zipWith_map_same, cosineSims, List.map_map]
    refine List.map_congr_left (fun r hr => ?_)
    have hden : s (sumSq r) * s (sumSq query_embedding) ≠ 0 :=
      mul_ne_zero (hrows r hr) hq
    simp [fdiv, hden]
  rcases hpre with h | h
  · simpa [calculate_similarity_matrix, h] using hmain
  · simpa [calculate_similarity_matrix, h, List.map_map] using hmain

/-! ## Claim theorems for the matcher -/

/-- C1: for a snapshot with at least one row (aligned with its record list,
every row of nonzero norm) and a probe of nonzero norm, `find_best_match`
computes the cosine similarity of the probe against every row, picks the
argmax index with ties broken towards the lowest row index, and returns the
record at that index together with the maximum similarity when that maximum
is at least the threshold, and `(none, max_similarity)` otherwise — the best
score is reported even on a non-match.  Holds both when the caller passes the
precomputed row norms and when norms are computed on the fly. -/
theorem find_best_match_argmax_spec {α : Type} (s : ℚ → ℚ)
    (embeddings_matrix : List (List ℚ)) (employee_info : List α)
    (query_embedding : List ℚ) (threshold : ℚ)
    (precomputed_norms : Option (List ℚ))
    (hmat : embeddings_matrix ≠ [])
    (hlen : employee_info.length = embeddings_matrix.length)
    (hq : s (sumSq query_embedding) ≠ 0)
    (hrows : ∀ r ∈ embeddings_matrix, s (sumSq r) ≠ 0)
    (hpre : precomputed_norms = none ∨
      precomputed_norms = some (embeddings_matrix.map (fun r => s (sumSq r)))) :
    npArgmax ((cosineSims s embeddings_matrix query_embedding).map NFloat.fin)
      < embeddings_matrix.length ∧
    (∀ i, i < embeddings_matrix.length →
      (cosineSims s embeddings_matrix query_embedding).getD i 0 ≤
      (cosineSims s embeddings_matrix query_embedding).getD
        (npArgmax ((cosineSims s embeddings_matrix query_embedding).map
          NFloat.fin)) 0) ∧
    (∀ i, i < npArgmax ((cosineSims s embeddings_matrix query_embedding).map
        NFloat.fin) →
      (cosineSims s embeddings_matrix query_embedding).getD i 0 <
      (cosineSims s embeddings_matrix query_embedding).getD
        (npArgmax ((cosineSims s embeddings_matrix query_embedding).map
          NFloat.fin)) 0) ∧
    employee_info[npArgmax ((cosineSims s embeddings_matrix
      query_embedding).map NFloat.fin)]? ≠ none ∧
    find_best_match s embeddings_matrix employee_info query_embedding
        threshold precomputed_norms =
      (if threshold ≤ (cosineSims s embeddings_matrix query_embedding).getD
          (npArgmax ((cosineSims s embeddings_matrix query_embedding).map
            NFloat.fin)) 0
        then employee_info[npArgmax ((cosineSims s embeddings_matrix
          query_embedding).map NFloat.fin)]?
        else none,
       NFloat.fin ((cosineSims s embeddings_matrix query_embedding).getD
        (npArgmax ((cosineSims s embeddings_matrix query_embedding).map
          NFloat.fin)) 0)) := by
  set L := cosineSims s embeddings_matrix query_embedding with hL
  have hLlen : L.length = embeddings_matrix.length := by
    simp [hL, cosineSims]
  have hLne : L ≠ [] := by
    simp only [hL, cosineSims, ne_eq, List.map_eq_nil_iff]
    exact hmat
  obtain ⟨hjlt, hmax, hfirst⟩ := npArgmax_fin_spec L hLne
  set j := npArgmax (L.map NFloat.fin) with hj
  have hjm : j < embeddings_matrix.length := hLlen ▸ hjlt
  have hji : j < employee_info.length := by omega
  have hsome : employee_info[j]? = some (employee_info.get ⟨j, hji⟩) := by
    rw [List.getElem?_eq_getElem hji]
    rfl
  refine ⟨hjm, fun i hi => hmax i (by omega), hfirst, by simp [hsome], ?_⟩
  have hguard : ¬ (embeddings_matrix.length = 0 ∨
      employee_info.length = 0) := by
    push_neg
    refine ⟨fun h => hmat (List.length_eq_zero.mp h), by omega⟩
  have hcalc := calculate_similarity_matrix_eq s embeddings_matrix
    query_embedding precomputed_norms hq hrows hpre
  rw [find_best_match, if_neg hguard]
  simp only [hcalc, ← hL, ← hj]
  rw [getD_map_fin L j hjlt]
  by_cases hth : threshold ≤ L.getD j 0
  · rw [if_pos (show fge (NFloat.fin (L.getD j 0)) threshold = true from
      decide_eq_true hth), if_pos hth]
  · rw [if_neg (show ¬ fge (NFloat.fin (L.getD j 0)) threshold = true from by
      simpa [fge] using hth), if_neg hth]

/-- Witness for C1 at a concrete two-row snapshot. -/
theorem find_best_match_argmax_spec_witness :
    ([[(1:ℚ), 0, 0], [0, 1, 0]] ≠ ([] : List (List ℚ)))
    ∧ ratSqrt (sumSq [(1:ℚ), 0, 0]) ≠ 0
    ∧ (∀ r ∈ [[(1:ℚ), 0, 0], [0, 1, 0]], ratSqrt (sumSq r) ≠ 0)
    ∧ find_best_match ratSqrt [[(1:ℚ), 0, 0], [0, 1, 0]] [(10:ℕ), 20]
        [(1:ℚ), 0, 0] (2/5) none = (some 10, NFloat.fin 1) := by
  have hq : ratSqrt (sumSq [(1:ℚ), 0, 0]) ≠ 0 := by
    norm_num [ratSqrt, sumSq, dot]
  have hrows : ∀ r ∈ [[(1:ℚ), 0, 0], [0, 1, 0]], ratSqrt (sumSq r) ≠ 0 := by
    intro r hr
    fin_cases hr <;> norm_num [ratSqrt, sumSq, dot]
  refine ⟨by simp, hq, hrows, ?_⟩
  have h := find_best_match_argmax_spec (α := ℕ) ratSqrt
    [[(1:ℚ), 0, 0], [0, 1, 0]] [10, 20] [(1:ℚ), 0, 0] (2/5) none
    (by simp) (by simp) hq hrows (Or.inl rfl)
  refine h.2.2.2.2.trans ?_
  norm_num [cosineSims, dot, sumSq, ratSqrt, npArgmax, argmaxGo, fle,
    NFloat.isNan]

/-- C8: on a snapshot with zero rows, `find_best_match` returns
`(none, 0.0)` regardless of the probe, the threshold and the norms. -/
theorem find_best_match_empty_snapshot {α : Type} (s : ℚ → ℚ)
    (employee_info : List α) (query_embedding : List ℚ) (threshold : ℚ)
    (precomputed_norms : Option (List ℚ)) :
    find_best_match s [] employee_info query_embedding threshold
      precomputed_norms = (none, NFloat.fin 0) := by
  simp [find_best_match]

/-! ## Zero-norm probes -/

theorem dot_self_nonneg (v : List ℚ) : 0 ≤ dot v v := by
  induction v with
  | nil => simp [dot]
  | cons x xs ih =>
      have := mul_self_nonneg x
      simp only [dot]
      linarith

theorem eq_zero_of_sumSq_eq_zero (v : List ℚ) (h : sumSq v = 0) :
    ∀ x ∈ v, x = 0 := by
  induction v with
  | nil => simp
  | cons x xs ih =>
      have hx2 := mul_self_nonneg x
      have hxs := dot_self_nonneg xs
      have hsum : x * x + dot xs xs = 0 := by simpa [sumSq, dot] using h
      have hx : x = 0 := by nlinarith
      have hrest : sumSq xs = 0 := by simp only [sumSq]; linarith
      intro y hy
      rcases List.mem_cons.mp hy with rfl | hy
      · exact hx
      · exact ih hrest y hy

theorem dot_eq_zero_right (r q : List ℚ) (hq : ∀ x ∈ q, x = 0) :
    dot r q = 0 := by
  induction r generalizing q with
  | nil => simp [dot]
  | cons a as ih =>
      match q, hq with
      | [], _ => simp [dot]
      | b :: bs, hq =>
          have hb : b = 0 := hq b (by simp)
          have hbs : ∀ x ∈ bs, x = 0 := fun x hx => hq x (by simp [hx])
          simp [dot, hb, ih bs hbs]

/-- C3 amended: a zero-norm probe is short-circuited to `(none, 0.0)` only
when the snapshot has zero rows.  Against a non-empty snapshot the code has
no zero-probe guard: every denominator `norms[i] * ||probe||` is zero while
every numerator `dot(matrix[i], probe)` is zero, so every similarity is
`0/0 = NaN`, `np.argmax` lands on the first `NaN`, the threshold comparison
with `NaN` is false, and the function returns `(none, NaN)` — not
`(none, 0.0)`. -/
theorem find_best_match_zero_probe {α : Type} (s : ℚ → ℚ)
    (embeddings_matrix : List (List ℚ)) (employee_info : List α)
    (query_embedding : List ℚ) (threshold : ℚ)
    (precomputed_norms : Option (List ℚ))
    (hq : sumSq query_embedding = 0) (hs0 : s 0 = 0)
    (hpre : precomputed_norms = none ∨
      precomputed_norms = some (embeddings_matrix.map (fun r => s (sumSq r)))) :
    (embeddings_matrix = [] →
      find_best_match s embeddings_matrix employee_info query_embedding
        threshold precomputed_norms = (none, NFloat.fin 0)) ∧
    (embeddings_matrix ≠ [] → employee_info ≠ [] →
      find_best_match s embeddings_matrix employee_info query_embedding
        threshold precomputed_norms = (none, NFloat.nan)) := by
  constructor
  · rintro rfl
    simp [find_best_match]
  · intro hmat hinfo
    have hzero : ∀ x ∈ query_embedding, x = 0 :=
      eq_zero_of_sumSq_eq_zero _ hq
    have hqn : s (sumSq query_embedding) = 0 := by rw [hq, hs0]
    have hmain : ∀ g : List ℚ → ℚ,
        List.zipWith fdiv
          (embeddings_matrix.map (fun r => dot r query_embedding))
          (embeddings_matrix.map (fun r => g r * s (sumSq query_embedding)))
        = embeddings_matrix.map (fun _ => NFloat.nan) := by
      intro g
      rw [zipWith_map_same]
      refine List.map_congr_left (fun r hr => ?_)
      rw [hqn, mul_zero, dot_eq_zero_right r query_embedding hzero]
      simp [fdiv]
    have hsims : calculate_similarity_matrix s embeddings_matrix
        query_embedding precomputed_norms
        = embeddings_matrix.map (fun _ => NFloat.nan) := by
      rcases hpre with h | h
      · simpa [calculate_similarity_matrix, h] using
          hmain (fun r => s (sumSq r))
      · simpa [calculate_similarity_matrix, h, List.map_map] using
          hmain (fun r => s (sumSq r))
    have hguard : ¬ (embeddings_matrix.length = 0 ∨
        employee_info.length = 0) := by
      push_neg
      exact ⟨fun h => hmat (List.length_eq_zero.mp h),
        fun h => hinfo (List.length_eq_zero.mp h)⟩
    rw [find_best_match, if_neg hguard, hsims]
    match embeddings_matrix, hmat with
    | m :: rest, _ => simp [npArgmax, NFloat.isNan, fge]

/-- Witness for the amended C3 at a concrete one-row snapshot. -/
theorem find_best_match_zero_probe_witness :
    sumSq [(0:ℚ)] = 0 ∧ ratSqrt 0 = 0 ∧
    find_best_match ratSqrt [[(1:ℚ)]] [(2:ℕ)] [(0:ℚ)] (2/5) none
      = (none, NFloat.nan) := by
  have h1 : sumSq [(0:ℚ)] = 0 := by norm_num [sumSq, dot]
  have h2 : ratSqrt 0 = 0 := by norm_num [ratSqrt]
  exact ⟨h1, h2,
    (find_best_match_zero_probe ratSqrt [[(1:ℚ)]] [(2:ℕ)] [(0:ℚ)] (2/5) none
      h1 h2 (Or.inl rfl)).2 (by simp) (by simp)⟩

/-- C3 counterexample: the probe `[0]` has zero norm, yet against the
non-empty snapshot `[[1]]` the code returns `(none, NaN)`, not
`(none, 0.0)`. -/
theorem find_best_match_zero_probe_counterexample :
    sumSq [(0:ℚ)] = 0 ∧ ratSqrt (sumSq [(0:ℚ)]) = 0 ∧
    find_best_match ratSqrt [[(1:ℚ)]] [(1:ℕ)] [(0:ℚ)] (2/5) none
      = (none, NFloat.nan) ∧
    find_best_match ratSqrt [[(1:ℚ)]] [(1:ℕ)] [(0:ℚ)] (2/5) none
      ≠ (none, NFloat.fin 0) := by
  have he : find_best_match ratSqrt [[(1:ℚ)]] [(1:ℕ)] [(0:ℚ)] (2/5) none
      = (none, NFloat.nan) := by
    norm_num [find_best_match, calculate_similarity_matrix, sumSq, dot,
      ratSqrt, fdiv, npArgmax, argmaxGo, fle, fge, NFloat.isNan]
  refine ⟨by norm_num [sumSq, dot], by norm_num [ratSqrt, sumSq, dot], he, ?_⟩
  rw [he]
  simp

/-! ## Roster records and parsing
(`src/Agent/python-face-service/cache_service.py`) -/

/-- The `face_embedding` field of a raw roster record as
`parse_employee_embeddings` can observe it: absent/empty (falsy, skipped by
`if not employee.get('face_embedding')`), present but failing
`json.loads`/`len` (skipped by the `except` branch), or parsed to a numeric
vector. -/
inductive FaceEmbeddingField where
  | missing
  | malformed
  | parsed (v : List ℚ)
deriving DecidableEq

/-- A raw employee record from the directory API; fields other than `id` and
`face_embedding` are irrelevant to the cache pipeline and omitted. -/
structure RawEmployee where
  id : ℕ
  face_embedding : FaceEmbeddingField
deriving DecidableEq

/-- A record survives validation iff its embedding parses and has the
expected dimension. -/
def has_valid_embedding (e : RawEmployee) : Bool :=
  match e.face_embedding with
  | .parsed v => v.length = EXPECTED_EMBEDDING_DIM
  | _ => false

/-- A record carries a parsed embedding of the wrong dimension. -/
def has_wrong_dimension (e : RawEmployee) : Bool :=
  match e.face_embedding with
  | .parsed v => v.length ≠ EXPECTED_EMBEDDING_DIM
  | _ => false

/-- `parse_employee_embeddings`: walk the raw records in order, skip the ones
without a parsable embedding or with the wrong dimension, and accumulate the
surviving embeddings and their records in lockstep. -/
def parse_employee_embeddings (employees : List RawEmployee) :
    List (List ℚ) × List RawEmployee :=
  match employees with
  | [] => ([], [])
  | e :: rest =>
      let p := parse_employee_embeddings rest
      match e.face_embedding with
      | .missing => p
      | .malformed => p
      | .parsed v =>
          if v.length = EXPECTED_EMBEDDING_DIM then (v :: p.1, e :: p.2)
          else p

/-! ## Thread-safe cache (`src/Agent/python-face-service/cache.py`) -/

/-- The mutable state of `ThreadSafeCache` (one lock-protected record; the
lock itself has no observable content in a sequential model). -/
structure ThreadSafeCache where
  employees : List RawEmployee
  embeddings_matrix : Option (List (List ℚ))
  embeddings_norms : Option (List ℚ)
  employee_info : List RawEmployee
  timestamp : Option ℚ
deriving DecidableEq

/-- `ThreadSafeCache.update`: overwrite every field, precompute per-row norms
when a non-empty matrix is given (`np.linalg.norm(matrix, axis=1)`, i.e.
`s ∘ sumSq` per row), and stamp `datetime.now()`. -/
def cache_update (s : ℚ → ℚ) (employees : List RawEmployee)
    (embeddings_matrix : Option (List (List ℚ)))
    (employee_info : List RawEmployee) (now : ℚ) : ThreadSafeCache :=
  { employees := employees
    embeddings_matrix := embeddings_matrix
    embeddings_norms :=
      match embeddings_matrix with
      | some m =>
          if 0 < m.length then some (m.map (fun r => s (sumSq r))) else none
      | none => none
    employee_info := employee_info
    timestamp := some now }

/-- `ThreadSafeCache.get_employees` (the python copy is value-identical). -/
def get_employees (c : ThreadSafeCache) : List RawEmployee := c.employees

/-- `ThreadSafeCache.get_embeddings_matrix`. -/
def get_embeddings_matrix (c : ThreadSafeCache) : Option (List (List ℚ)) :=
  c.embeddings_matrix

/-- `ThreadSafeCache.get_embeddings_norms`. -/
def get_embeddings_norms (c : ThreadSafeCache) : Option (List ℚ) :=
  c.embeddings_norms

/-- `ThreadSafeCache.get_employee_info`. -/
def get_employee_info (c : ThreadSafeCache) : List RawEmployee :=
  c.employee_info

/-- `ThreadSafeCache.get_timestamp`. -/
def get_timestamp (c : ThreadSafeCache) : Option ℚ := c.timestamp

/-- `ThreadSafeCache.is_stale`: `True` when no snapshot was ever installed,
otherwise `age > CACHE_REFRESH_SECONDS` with `age = now - timestamp` in
seconds. -/
def is_stale (c : ThreadSafeCache) (now : ℚ) : Bool :=
  match c.timestamp with
  | none => true
  | some ts => decide (now - ts > CACHE_REFRESH_SECONDS)

/-- Python `int()` truncation toward zero. -/
def int_trunc (x : ℚ) : ℤ := if 0 ≤ x then ⌊x⌋ else ⌈x⌉

/-- `ThreadSafeCache.get_cache_age`: the sentinel `999` when no snapshot was
ever installed, otherwise the truncated age in seconds. -/
def get_cache_age (c : ThreadSafeCache) (now : ℚ) : ℤ :=
  match c.timestamp with
  | none => 999
  | some ts => int_trunc (now - ts)

/-! ## Fetch and refresh (`api_client.py`, `cache_service.py`) -/

/-- The first successful outcome in a sequence of attempt outcomes. -/
def first_success {β : Type} : List (Option β) → Option β
  | [] => none
  | some d :: _ => some d
  | none :: rest => first_success rest

/-- `fetch_employees_from_api`: up to `MAX_RETRIES` attempts, returning the
first attempt that yields status 200 with data, and `None` when every
attempt fails.  The network is modelled by the list of per-attempt
outcomes. -/
def fetch_employees_from_api
    (attempts : List (Option (List RawEmployee))) :
    Option (List RawEmployee) :=
  first_success (attempts.take MAX_RETRIES)

/-- `refresh_employee_cache` (the second, effective definition in
`cache_service.py`, lines 123-156): abort reporting failure when the fetch
returned `None`, leaving the cache untouched; otherwise parse, and install
either the stacked matrix with its aligned info list or an empty snapshot
(`update(employees, None, [])`). -/
def refresh_employee_cache (s : ℚ → ℚ)
    (fetched : Option (List RawEmployee)) (c : ThreadSafeCache) (now : ℚ) :
    Bool × ThreadSafeCache :=
  match fetched with
  | none => (false, c)
  | some employees =>
      let p := parse_employee_embeddings employees
      if p.1 = [] then (true, cache_update s employees none [] now)
      else (true, cache_update s employees (some p.1) p.2 now)

/-- Row count of an optional matrix (`None` has zero rows). -/
def matrix_rows : Option (List (List ℚ)) → ℕ
  | none => 0
  | some m => m.length

/-- Length of an optional norms vector (`None` is empty). -/
def norms_len : Option (List ℚ) → ℕ
  | none => 0
  | some l => l.length

/-! ## Parsing lemmas -/

theorem parse_fst_length_eq_snd_length (employees : List RawEmployee) :
    (parse_employee_embeddings employees).1.length
      = (parse_employee_embeddings employees).2.length := by
  induction employees with
  | nil => rfl
  | cons e rest ih =>
      simp only [parse_employee_embeddings]
      match e.face_embedding with
      | .missing => exact ih
      | .malformed => exact ih
      | .parsed v =>
          by_cases h : v.length = EXPECTED_EMBEDDING_DIM
          · simpa [h] using ih
          · simpa [h] using ih

theorem parse_snd_eq_filter (employees : List RawEmployee) :
    (parse_employee_embeddings employees).2
      = employees.filter has_valid_embedding := by
  induction employees with
  | nil => rfl
  | cons e rest ih =>
      simp only [parse_employee_embeddings, List.filter_cons]
      match he : e.face_embedding with
      | .missing => simpa [has_valid_embedding, he] using ih
      | .malformed => simpa [has_valid_embedding, he] using ih
      | .parsed v =>
          by_cases h : v.length = EXPECTED_EMBEDDING_DIM
          · simpa [has_valid_embedding, he, h] using ih
          · simpa [has_valid_embedding, he, h] using ih

/-! ## Cache claim theorems -/

/-- C4: alignment invariant.  `update` called with an info list aligned to
the matrix (as every caller in the repository does) produces a state whose
record list, matrix rows and precomputed norms agree in length, and every
snapshot installed by a refresh with a successful fetch satisfies the same
invariant; the getters expose exactly the stored (aligned) components. -/
theorem cache_alignment_invariant (s : ℚ → ℚ) :
    (∀ employees matrix employee_info (now : ℚ),
      employee_info.length = matrix_rows matrix →
      (get_employee_info
          (cache_update s employees matrix employee_info now)).length
        = matrix_rows (get_embeddings_matrix
          (cache_update s employees matrix employee_info now)) ∧
      matrix_rows (get_embeddings_matrix
          (cache_update s employees matrix employee_info now))
        = norms_len (get_embeddings_norms
          (cache_update s employees matrix employee_info now))) ∧
    (∀ fetched c (now : ℚ),
      (get_employee_info
          ((refresh_employee_cache s (some fetched) c now).2)).length
        = matrix_rows (get_embeddings_matrix
          ((refresh_employee_cache s (some fetched) c now).2)) ∧
      matrix_rows (get_embeddings_matrix
          ((refresh_employee_cache s (some fetched) c now).2))
        = norms_len (get_embeddings_norms
          ((refresh_employee_cache s (some fetched) c now).2))) := by
  have hupd : ∀ employees matrix employee_info (now : ℚ),
      employee_info.length = matrix_rows matrix →
      (get_employee_info
          (cache_update s employees matrix employee_info now)).length
        = matrix_rows (get_embeddings_matrix
          (cache_update s employees matrix employee_info now)) ∧
      matrix_rows (get_embeddings_matrix
          (cache_update s employees matrix employee_info now))
        = norms_len (get_embeddings_norms
          (cache_update s employees matrix employee_info now)) := by
    intro employees matrix employee_info now hlen
    refine ⟨by simpa [cache_update, get_employee_info,
      get_embeddings_matrix] using hlen, ?_⟩
    match matrix with
    | none => simp [cache_update, get_embeddings_matrix,
        get_embeddings_norms, matrix_rows, norms_len]
    | some m =>
        by_cases hm : 0 < m.length
        · simp [cache_update, get_embeddings_matrix, get_embeddings_norms,
            matrix_rows, norms_len, hm]
        · simp only [cache_update, get_embeddings_matrix,
            get_embeddings_norms, matrix_rows, norms_len, if_neg hm]
          omega
  refine ⟨hupd, fun fetched c now => ?_⟩
  by_cases h : (parse_employee_embeddings fetched).1 = []
  · have := hupd fetched none [] now (by simp [matrix_rows])
    simpa [refresh_employee_cache, h] using this
  · have hlen : (parse_employee_embeddings fetched).2.length
        = matrix_rows (some (parse_employee_embeddings fetched).1) := by
      simp [matrix_rows, parse_fst_length_eq_snd_length]
    have := hupd fetched (some (parse_employee_embeddings fetched).1)
      (parse_employee_embeddings fetched).2 now hlen
    simpa [refresh_employee_cache, h] using this

/-- Witness for C4 on a concrete aligned update and a concrete refresh. -/
theorem cache_alignment_invariant_witness :
    ([⟨1, FaceEmbeddingField.missing⟩] : List RawEmployee).length
      = matrix_rows (some [[(1:ℚ)]]) ∧
    (get_employee_info (cache_update ratSqrt [] (some [[(1:ℚ)]])
        [⟨1, FaceEmbeddingField.missing⟩] 0)).length
      = matrix_rows (get_embeddings_matrix (cache_update ratSqrt []
        (some [[(1:ℚ)]]) [⟨1, FaceEmbeddingField.missing⟩] 0)) ∧
    matrix_rows (get_embeddings_matrix ((refresh_employee_cache ratSqrt
        (some []) ⟨[], none, none, [], none⟩ 0).2))
      = norms_len (get_embeddings_norms ((refresh_employee_cache ratSqrt
        (some []) ⟨[], none, none, [], none⟩ 0).2)) := by
  have h1 : ([⟨1, FaceEmbeddingField.missing⟩] : List RawEmployee).length
      = matrix_rows (some [[(1:ℚ)]]) := by simp [matrix_rows]
  have h2 := ((cache_alignment_invariant ratSqrt).1 []
    (some [[(1:ℚ)]]) [⟨1, FaceEmbeddingField.missing⟩] 0 h1).1
  have h3 := ((cache_alignment_invariant ratSqrt).2 []
    ⟨[], none, none, [], none⟩ 0).2
  exact ⟨h1, h2, h3⟩

theorem countP_valid_add_wrong : ∀ employees : List RawEmployee,
    (∀ e ∈ employees, ∃ v, e.face_embedding = FaceEmbeddingField.parsed v) →
    employees.countP has_valid_embedding
      + employees.countP has_wrong_dimension = employees.length := by
  intro employees
  induction employees with
  | nil => intro _; rfl
  | cons e rest ih =>
      intro hall
      obtain ⟨v, hv⟩ := hall e (by simp)
      have ihr := ih (fun x hx => hall x (by simp [hx]))
      by_cases h : v.length = EXPECTED_EMBEDDING_DIM
      · simp [List.countP_cons, has_valid_embedding, has_wrong_dimension,
          hv, h]
        omega
      · simp [List.countP_cons, has_valid_embedding, has_wrong_dimension,
          hv, h]
        omega

/-- C5: when every raw record carries a parsable embedding and exactly `K`
of them have the wrong dimension, the parser keeps exactly the records of
the expected dimension (in order), its matrix has `N - K` rows, and the
refresh installs a snapshot with exactly `N - K` rows. -/
theorem record_skip_law (s : ℚ → ℚ) (employees : List RawEmployee)
    (c : ThreadSafeCache) (now : ℚ)
    (hall : ∀ e ∈ employees, ∃ v, e.face_embedding
      = FaceEmbeddingField.parsed v) :
    (parse_employee_embeddings employees).1.length
      = employees.length - employees.countP has_wrong_dimension ∧
    (parse_employee_embeddings employees).2
      = employees.filter has_valid_embedding ∧
    matrix_rows (get_embeddings_matrix
        ((refresh_employee_cache s (some employees) c now).2))
      = employees.length - employees.countP has_wrong_dimension := by
  have hsplit := countP_valid_add_wrong employees hall
  have h1 : (parse_employee_embeddings employees).1.length
      = employees.length - employees.countP has_wrong_dimension := by
    rw [parse_fst_length_eq_snd_length, parse_snd_eq_filter,
      ← List.countP_eq_length_filter]
    omega
  refine ⟨h1, parse_snd_eq_filter employees, ?_⟩
  have hrows : matrix_rows (get_embeddings_matrix
      ((refresh_employee_cache s (some employees) c now).2))
      = (parse_employee_embeddings employees).1.length := by
    by_cases h : (parse_employee_embeddings employees).1 = []
    · simp [refresh_employee_cache, h, cache_update,
        get_embeddings_matrix, matrix_rows]
    · by_cases hlen : 0 < (parse_employee_embeddings employees).1.length
      · simp [refresh_employee_cache, h, cache_update,
          get_embeddings_matrix, matrix_rows]
      · exact absurd (List.length_pos.mpr h) hlen
  rw [hrows, h1]

/-- Witness for C5: two parsable records, one of the wrong dimension. -/
theorem record_skip_law_witness :
    (∀ e ∈ ([⟨1, FaceEmbeddingField.parsed
        (List.replicate EXPECTED_EMBEDDING_DIM 1)⟩,
      ⟨2, FaceEmbeddingField.parsed [1]⟩] : List RawEmployee),
      ∃ v, e.face_embedding = FaceEmbeddingField.parsed v) ∧
    (parse_employee_embeddings [⟨1, FaceEmbeddingField.parsed
        (List.replicate EXPECTED_EMBEDDING_DIM 1)⟩,
      ⟨2, FaceEmbeddingField.parsed [1]⟩]).1.length = 1 := by
  have hall : ∀ e ∈ ([⟨1, FaceEmbeddingField.parsed
        (List.replicate EXPECTED_EMBEDDING_DIM 1)⟩,
      ⟨2, FaceEmbeddingField.parsed [1]⟩] : List RawEmployee),
      ∃ v, e.face_embedding = FaceEmbeddingField.parsed v := by
    intro e he
    fin_cases he <;> exact ⟨_, rfl⟩
  refine ⟨hall, ?_⟩
  have h := (record_skip_law ratSqrt _ ⟨[], none, none, [], none⟩ 0 hall).1
  rw [h]
  simp [List.countP_cons, has_wrong_dimension, EXPECTED_EMBEDDING_DIM]

/-- C6: when every attempt of the fetch fails, `fetch_employees_from_api`
returns `None`, the refresh reports failure, and the cache is left exactly
as it was: every getter returns the pre-refresh value. -/
theorem refresh_failure_preserves_cache (s : ℚ → ℚ)
    (attempts : List (Option (List RawEmployee))) (c : ThreadSafeCache)
    (now : ℚ) (hfail : ∀ a ∈ attempts, a = none) :
    fetch_employees_from_api attempts = none ∧
    refresh_employee_cache s (fetch_employees_from_api attempts) c now
      = (false, c) ∧
    get_employees ((refresh_employee_cache s
        (fetch_employees_from_api attempts) c now).2) = get_employees c ∧
    get_embeddings_matrix ((refresh_employee_cache s
        (fetch_employees_from_api attempts) c now).2)
      = get_embeddings_matrix c ∧
    get_embeddings_norms ((refresh_employee_cache s
        (fetch_employees_from_api attempts) c now).2)
      = get_embeddings_norms c ∧
    get_employee_info ((refresh_employee_cache s
        (fetch_employees_from_api attempts) c now).2)
      = get_employee_info c ∧
    get_timestamp ((refresh_employee_cache s
        (fetch_employees_from_api attempts) c now).2) = get_timestamp c := by
  have hnone : ∀ l : List (Option (List RawEmployee)),
      (∀ a ∈ l, a = none) → first_success l = none := by
    intro l
    induction l with
    | nil => intro _; rfl
    | cons a rest ih =>
        intro h
        have ha : a = none := h a (by simp)
        subst ha
        exact ih (fun x hx => h x (by simp [hx]))
  have hfetch : fetch_employees_from_api attempts = none :=
    hnone _ (fun a ha => hfail a (List.mem_of_mem_take ha))
  rw [hfetch]
  exact ⟨rfl, rfl, rfl, rfl, rfl, rfl, rfl⟩

/-- Witness for C6: both attempts fail against a populated cache. -/
theorem refresh_failure_preserves_cache_witness :
    (∀ a ∈ ([none, none] : List (Option (List RawEmployee))), a = none) ∧
    refresh_employee_cache ratSqrt (fetch_employees_from_api [none, none])
        ⟨[⟨3, FaceEmbeddingField.missing⟩], some [[(1:ℚ)]], some [1],
          [⟨3, FaceEmbeddingField.missing⟩], some 5⟩ 9
      = (false, ⟨[⟨3, FaceEmbeddingField.missing⟩], some [[(1:ℚ)]],
          some [1], [⟨3, FaceEmbeddingField.missing⟩], some 5⟩) := by
  refine ⟨by simp, ?_⟩
  exact (refresh_failure_preserves_cache ratSqrt [none, none] _ 9
    (by simp)).2.1

/-- C9: a successful fetch in which zero records survive validation still
installs an empty snapshot — the cache is overwritten with a zero-row
matrix, an empty info list and a fresh `captured_at` — and the refresh
reports success. -/
theorem empty_roster_installs (s : ℚ → ℚ) (employees : List RawEmployee)
    (c : ThreadSafeCache) (now : ℚ)
    (hempty : (parse_employee_embeddings employees).1 = []) :
    refresh_employee_cache s (some employees) c now
      = (true, ⟨employees, none, none, [], some now⟩) ∧
    matrix_rows (get_embeddings_matrix
        ((refresh_employee_cache s (some employees) c now).2)) = 0 ∧
    get_timestamp ((refresh_employee_cache s (some employees) c now).2)
      = some now ∧
    (refresh_employee_cache s (some employees) c now).1 = true := by
  have h : refresh_employee_cache s (some employees) c now
      = (true, ⟨employees, none, none, [], some now⟩) := by
    simp [refresh_employee_cache, hempty, cache_update]
  refine ⟨h, ?_, ?_, ?_⟩ <;>
    simp [h, get_embeddings_matrix, get_timestamp, matrix_rows]

/-- Witness for C9: one record with no embedding. -/
theorem empty_roster_installs_witness :
    (parse_employee_embeddings [⟨7, FaceEmbeddingField.missing⟩]).1 = [] ∧
    refresh_employee_cache ratSqrt
        (some [⟨7, FaceEmbeddingField.missing⟩])
        ⟨[], some [[(1:ℚ)]], some [1], [⟨7, FaceEmbeddingField.missing⟩],
          some 5⟩ 11
      = (true, ⟨[⟨7, FaceEmbeddingField.missing⟩], none, none, [],
          some 11⟩) := by
  refine ⟨rfl, ?_⟩
  exact (empty_roster_installs ratSqrt [⟨7, FaceEmbeddingField.missing⟩]
    _ 11 rfl).1

/-- C10: `is_stale` is true exactly when the cache age `now - captured_at`
strictly exceeds the refresh threshold, and with no snapshot ever installed
the age query returns the sentinel `999` while `is_stale` is true. -/
theorem staleness_spec (c : ThreadSafeCache) (now : ℚ) :
    (∀ ts, c.timestamp = some ts →
      (is_stale c now = true ↔ now - ts > CACHE_REFRESH_SECONDS)) ∧
    (c.timestamp = none →
      is_stale c now = true ∧ get_cache_age c now = 999) := by
  constructor
  · intro ts hts
    simp [is_stale, hts]
  · intro hts
    simp [is_stale, get_cache_age, hts]

/-- Witness for C10: an empty cache is stale with sentinel age, and a cache
11 seconds old is stale under the 10-second threshold. -/
theorem staleness_spec_witness :
    (⟨[], none, none, [], none⟩ : ThreadSafeCache).timestamp = none ∧
    is_stale ⟨[], none, none, [], none⟩ 0 = true ∧
    get_cache_age ⟨[], none, none, [], none⟩ 0 = 999 ∧
    is_stale ⟨[], none, none, [], some 3⟩ 14 = true := by
  have h := (staleness_spec ⟨[], none, none, [], none⟩ 0).2 rfl
  have h2 := ((staleness_spec ⟨[], none, none, [], some 3⟩ 14).1 3
    rfl).mpr (by norm_num [CACHE_REFRESH_SECONDS])
  exact ⟨rfl, h.1, h.2, h2⟩

/-! ## Floor presence tracker
(`src/python-face-service/live_floor_monitoring.py`) -/

/-- One value of the `floor_presence[floor_id][employee_id]` dict, exactly
the fields `process_frame` (and `test_add_person`) store. -/
structure PresenceEntry where
  employee_id : ℕ
  name : String
  employee_number : String
  department : String
  last_seen : ℚ
  camera_id : ℕ
  similarity : ℚ
deriving DecidableEq

/-- The `floor_presence` defaultdict-of-dicts as an insertion-ordered
association list of association lists. -/
abbrev FloorPresence := List (ℕ × List (ℕ × PresenceEntry))

/-- Python dict assignment `d[k] = v`: replace the value in place when the
key exists (keeping its position), otherwise append. -/
def dict_upsert {β : Type} (k : ℕ) (v : β) :
    List (ℕ × β) → List (ℕ × β)
  | [] => [(k, v)]
  | (k', v') :: rest =>
      if k' = k then (k, v) :: rest else (k', v') :: dict_upsert k v rest

/-- Python dict lookup `d.get(k)`. -/
def dict_find {β : Type} (k : ℕ) : List (ℕ × β) → Option β
  | [] => none
  | (k', v) :: rest => if k' = k then some v else dict_find k rest

/-- `floor_presence[floor_id]` on a defaultdict: the floor's dict, or empty
when the floor was never touched. -/
def get_floor (st : FloorPresence) (f : ℕ) : List (ℕ × PresenceEntry) :=
  match st with
  | [] => []
  | (f', l) :: rest => if f' = f then l else get_floor rest f

/-- The presence upsert `floor_presence[floor_id][employee_id] = {...}`
performed by `process_frame` on an identified face (and verbatim by
`test_add_person`): the entry is keyed by its `employee_id`. -/
def update_floor_presence (st : FloorPresence) (f : ℕ)
    (e : PresenceEntry) : FloorPresence :=
  dict_upsert f (dict_upsert e.employee_id e (get_floor st f)) st

/-- `cleanup_old_presence`: delete, on every floor, each entry with
`now - last_seen > PRESENCE_TIMEOUT` (strict). -/
def cleanup_old_presence (st : FloorPresence) (now : ℚ) : FloorPresence :=
  st.map (fun p =>
    (p.1, p.2.filter (fun q => decide (now - q.2.last_seen ≤ PRESENCE_TIMEOUT))))

/-- `get_floor_presence`: run the cleanup, then list the floor's entries
(the endpoint formats `floor_presence[floor_id].values()`); returns the
post-cleanup state together with the listed people. -/
def get_floor_presence (st : FloorPresence) (f : ℕ) (now : ℚ) :
    FloorPresence × List PresenceEntry :=
  let cleaned := cleanup_old_presence st now
  (cleaned, (get_floor cleaned f).map Prod.snd)

/-! ## Dictionary lemmas -/

theorem get_floor_dict_upsert (st : FloorPresence) (f : ℕ)
    (l : List (ℕ × PresenceEntry)) :
    get_floor (dict_upsert f l st) f = l := by
  induction st with
  | nil => simp [dict_upsert, get_floor]
  | cons p rest ih =>
      by_cases h : p.1 = f
      · simp [dict_upsert, get_floor, h]
      · simpa [dict_upsert, get_floor, h] using ih

theorem get_floor_cleanup (st : FloorPresence) (now : ℚ) (f : ℕ) :
    get_floor (cleanup_old_presence st now) f
      = (get_floor st f).filter
          (fun q => decide (now - q.2.last_seen ≤ PRESENCE_TIMEOUT)) := by
  induction st with
  | nil => simp [cleanup_old_presence, get_floor]
  | cons p rest ih =>
      by_cases h : p.1 = f
      · simp [cleanup_old_presence, get_floor, h]
      · simpa [cleanup_old_presence, get_floor, h] using ih

theorem mem_dict_upsert_self {β : Type} (k : ℕ) (v : β)
    (l : List (ℕ × β)) : (k, v) ∈ dict_upsert k v l := by
  induction l with
  | nil => simp [dict_upsert]
  | cons p rest ih =>
      by_cases h : p.1 = k
      · simp [dict_upsert, h]
      · simp only [dict_upsert, if_neg h]
        exact List.mem_cons_of_mem _ ih

theorem eq_of_mem_dict_upsert {β : Type} (k : ℕ) (v : β)
    (l : List (ℕ × β)) (hnd : (l.map Prod.fst).Nodup)
    (p : ℕ × β) (hp : p ∈ dict_upsert k v l) (hpk : p.1 = k) :
    p = (k, v) := by
  induction l with
  | nil =>
      simpa [dict_upsert] using hp
  | cons q rest ih =>
      obtain ⟨qk, qv⟩ := q
      rw [List.map_cons, List.nodup_cons] at hnd
      by_cases h : qk = k
      · rw [dict_upsert, if_pos h] at hp
        rcases List.mem_cons.mp hp with rfl | hp
        · rfl
        · exfalso
          apply hnd.1
          show qk ∈ rest.map Prod.fst
          rw [h, ← hpk]
          exact List.mem_map_of_mem Prod.fst hp
      · rw [dict_upsert, if_neg h] at hp
        rcases List.mem_cons.mp hp with rfl | hp
        · exact absurd hpk h
        · exact ih hnd.2 hp

theorem key_coherent_dict_upsert (e : PresenceEntry)
    (l : List (ℕ × PresenceEntry))
    (hkv : ∀ q ∈ l, q.2.employee_id = q.1) :
    ∀ p ∈ dict_upsert e.employee_id e l, p.2.employee_id = p.1 := by
  induction l with
  | nil =>
      intro p hp
      rcases List.mem_singleton.mp hp with rfl
      rfl
  | cons q rest ih =>
      obtain ⟨qk, qv⟩ := q
      intro p hp
      by_cases h : qk = e.employee_id
      · rw [dict_upsert, if_pos h] at hp
        rcases List.mem_cons.mp hp with rfl | hp
        · rfl
        · exact hkv p (List.mem_cons_of_mem _ hp)
      · rw [dict_upsert, if_neg h] at hp
        rcases List.mem_cons.mp hp with rfl | hp
        · exact hkv _ (by simp)
        · exact ih (fun x hx => hkv x (List.mem_cons_of_mem _ hx)) p hp

theorem dict_upsert_absorb {β : Type} (k : ℕ) (v1 v2 : β)
    (l : List (ℕ × β)) :
    dict_upsert k v2 (dict_upsert k v1 l) = dict_upsert k v2 l := by
  induction l with
  | nil => simp [dict_upsert]
  | cons p rest ih =>
      by_cases h : p.1 = k
      · simp [dict_upsert, h]
      · simp [dict_upsert, h, ih]

theorem count_keys_dict_upsert {β : Type} (k : ℕ) (v : β)
    (l : List (ℕ × β)) (hnd : (l.map Prod.fst).Nodup) :
    ((dict_upsert k v l).map Prod.fst).count k = 1 := by
  induction l with
  | nil => simp [dict_upsert]
  | cons p rest ih =>
      rw [List.map_cons, List.nodup_cons] at hnd
      by_cases h : p.1 = k
      · have hzero : (rest.map Prod.fst).count k = 0 :=
          List.count_eq_zero_of_not_mem (h ▸ hnd.1)
        simp [dict_upsert, h, List.count_cons, hzero]
      · simp [dict_upsert, h, List.count_cons, ih hnd.2]

theorem dict_find_upsert {β : Type} (k : ℕ) (v : β)
    (l : List (ℕ × β)) : dict_find k (dict_upsert k v l) = some v := by
  induction l with
  | nil => simp [dict_upsert, dict_find]
  | cons p rest ih =>
      by_cases h : p.1 = k
      · simp [dict_upsert, dict_find, h]
      · simp [dict_upsert, dict_find, h, ih]

/-! ## Presence claim theorems -/

/-- C2: after an update at time `T` for `(f, e)` with no later sighting, a
`get_floor_presence` query at any time `t ≤ T + PRESENCE_TIMEOUT` still
lists the identity, while a query at any `t > T + PRESENCE_TIMEOUT`
excludes it and removes its entry from the post-cleanup state (the cutoff
`now - last_seen > timeout` is strict). -/
theorem presence_timeout_law (st : FloorPresence) (f : ℕ)
    (e : PresenceEntry) (T t : ℚ)
    (hnd : ((get_floor st f).map Prod.fst).Nodup)
    (hkv : ∀ q ∈ get_floor st f, q.2.employee_id = q.1) :
    (t ≤ T + PRESENCE_TIMEOUT →
      e.employee_id ∈ ((get_floor_presence (update_floor_presence st f
        { e with last_seen := T }) f t).2).map PresenceEntry.employee_id) ∧
    (T + PRESENCE_TIMEOUT < t →
      e.employee_id ∉ ((get_floor_presence (update_floor_presence st f
        { e with last_seen := T }) f t).2).map PresenceEntry.employee_id ∧
      ∀ q ∈ get_floor ((get_floor_presence (update_floor_presence st f
        { e with last_seen := T }) f t).1) f, q.1 ≠ e.employee_id) := by
  set ent : PresenceEntry := { e with last_seen := T } with hent
  have hentid : ent.employee_id = e.employee_id := rfl
  set U := dict_upsert ent.employee_id ent (get_floor st f) with hU
  have hgf : get_floor (update_floor_presence st f ent) f = U := by
    rw [update_floor_presence, get_floor_dict_upsert]
  have hfloor2 : get_floor ((get_floor_presence
        (update_floor_presence st f ent) f t).1) f
      = U.filter (fun q => decide (t - q.2.last_seen ≤ PRESENCE_TIMEOUT)) := by
    show get_floor (cleanup_old_presence (update_floor_presence st f ent) t) f
      = _
    rw [get_floor_cleanup, hgf]
  have hlisted : (get_floor_presence (update_floor_presence st f ent) f t).2
      = (U.filter (fun q =>
          decide (t - q.2.last_seen ≤ PRESENCE_TIMEOUT))).map Prod.snd := by
    show (get_floor (cleanup_old_presence (update_floor_presence st f ent) t)
      f).map Prod.snd = _
    rw [get_floor_cleanup, hgf]
  constructor
  · intro ht
    have hpred : decide (t - ent.last_seen ≤ PRESENCE_TIMEOUT) = true := by
      apply decide_eq_true
      show t - T ≤ PRESENCE_TIMEOUT
      linarith
    have hmemf : (ent.employee_id, ent) ∈ U.filter
        (fun q => decide (t - q.2.last_seen ≤ PRESENCE_TIMEOUT)) :=
      List.mem_filter.mpr ⟨mem_dict_upsert_self _ _ _, hpred⟩
    rw [hlisted]
    exact List.mem_map.mpr ⟨ent,
      List.mem_map.mpr ⟨(ent.employee_id, ent), hmemf, rfl⟩, hentid⟩
  · intro ht
    have hexcl : ∀ q ∈ U.filter
        (fun q => decide (t - q.2.last_seen ≤ PRESENCE_TIMEOUT)),
        q.1 ≠ e.employee_id := by
      intro q hq hqk
      have hqU := (List.mem_filter.mp hq).1
      have hqpred := (List.mem_filter.mp hq).2
      have hqe : q = (ent.employee_id, ent) :=
        eq_of_mem_dict_upsert _ _ _ hnd q hqU (by rw [hqk, ← hentid])
      rw [hqe] at hqpred
      have : t - T ≤ PRESENCE_TIMEOUT := of_decide_eq_true hqpred
      linarith
    refine ⟨?_, ?_⟩
    · intro hmem
      rw [hlisted] at hmem
      obtain ⟨p, hpmem, hpid⟩ := List.mem_map.mp hmem
      obtain ⟨q, hqmem, rfl⟩ := List.mem_map.mp hpmem
      have hco : ∀ p ∈ U, p.2.employee_id = p.1 :=
        key_coherent_dict_upsert ent _ hkv
      have hq1 : q.1 = e.employee_id := by
        rw [← hco q (List.mem_filter.mp hqmem).1, hpid]
      exact hexcl q hqmem hq1
    · intro q hq
      rw [hfloor2] at hq
      exact hexcl q hq

/-- Witness for C2: a sighting at `t = 0` with the 60-second timeout is
listed at `t = 60` and gone at `t = 61`. -/
theorem presence_timeout_law_witness :
    ((get_floor ([] : FloorPresence) 100).map Prod.fst).Nodup ∧
    (0 : ℚ) + PRESENCE_TIMEOUT < 61 ∧
    (5 : ℕ) ∉ ((get_floor_presence (update_floor_presence [] 100
        (⟨5, "a", "b", "c", 0, 1, 1⟩ : PresenceEntry)) 100 61).2).map
      PresenceEntry.employee_id ∧
    (5 : ℕ) ∈ ((get_floor_presence (update_floor_presence [] 100
        (⟨5, "a", "b", "c", 0, 1, 1⟩ : PresenceEntry)) 100 60).2).map
      PresenceEntry.employee_id := by
  have hnd : ((get_floor ([] : FloorPresence) 100).map Prod.fst).Nodup := by
    simp [get_floor]
  have hkv : ∀ q ∈ get_floor ([] : FloorPresence) 100,
      q.2.employee_id = q.1 := by simp [get_floor]
  have h61 := (presence_timeout_law [] 100 ⟨5, "a", "b", "c", 0, 1, 1⟩ 0 61
    hnd hkv).2 (by norm_num [PRESENCE_TIMEOUT])
  have h60 := (presence_timeout_law [] 100 ⟨5, "a", "b", "c", 0, 1, 1⟩ 0 60
    hnd hkv).1 (by norm_num [PRESENCE_TIMEOUT])
  exact ⟨hnd, by norm_num [PRESENCE_TIMEOUT], h61.1, h60⟩

/-- C7: two immediate updates for the same `(floor, identity)` pair leave
exactly one entry for that pair, and looking it up yields the second call's
entry, whose `last_seen` is the second call's time. -/
theorem presence_update_idempotent (st : FloorPresence) (f : ℕ)
    (e1 e2 : PresenceEntry) (T1 T2 : ℚ)
    (hnd : ((get_floor st f).map Prod.fst).Nodup)
    (hid : e2.employee_id = e1.employee_id) :
    ((get_floor (update_floor_presence (update_floor_presence st f
        { e1 with last_seen := T1 }) f { e2 with last_seen := T2 }) f).map
      Prod.fst).count e1.employee_id = 1 ∧
    dict_find e1.employee_id (get_floor (update_floor_presence
        (update_floor_presence st f { e1 with last_seen := T1 }) f
        { e2 with last_seen := T2 }) f)
      = some { e2 with last_seen := T2 } := by
  set ent1 : PresenceEntry := { e1 with last_seen := T1 } with hent1
  set ent2 : PresenceEntry := { e2 with last_seen := T2 } with hent2
  have h1 : ent1.employee_id = e1.employee_id := rfl
  have h2 : ent2.employee_id = e1.employee_id := hid
  have hgf : get_floor (update_floor_presence
        (update_floor_presence st f ent1) f ent2) f
      = dict_upsert ent2.employee_id ent2
          (dict_upsert ent1.employee_id ent1 (get_floor st f)) := by
    rw [update_floor_presence, get_floor_dict_upsert,
      update_floor_presence, get_floor_dict_upsert]
  have habs : dict_upsert ent2.employee_id ent2
        (dict_upsert ent1.employee_id ent1 (get_floor st f))
      = dict_upsert e1.employee_id ent2 (get_floor st f) := by
    rw [h1, h2]
    exact dict_upsert_absorb _ _ _ _
  rw [hgf, habs]
  exact ⟨count_keys_dict_upsert _ _ _ hnd, dict_find_upsert _ _ _⟩

/-- Witness for C7: two updates for identity 5 on floor 1. -/
theorem presence_update_idempotent_witness :
    ((get_floor ([] : FloorPresence) 1).map Prod.fst).Nodup ∧
    ((get_floor (update_floor_presence (update_floor_presence [] 1
        (⟨5, "a", "b", "c", 3, 1, 1⟩ : PresenceEntry)) 1
        (⟨5, "x", "y", "z", 7, 2, 1⟩ : PresenceEntry)) 1).map
      Prod.fst).count 5 = 1 ∧
    dict_find 5 (get_floor (update_floor_presence (update_floor_presence []
        1 (⟨5, "a", "b", "c", 3, 1, 1⟩ : PresenceEntry)) 1
        (⟨5, "x", "y", "z", 7, 2, 1⟩ : PresenceEntry)) 1)
      = some (⟨5, "x", "y", "z", 7, 2, 1⟩ : PresenceEntry) := by
  have hnd : ((get_floor ([] : FloorPresence) 1).map Prod.fst).Nodup := by
    simp [get_floor]
  have h := presence_update_idempotent [] 1
    ⟨5, "a", "b", "c", 0, 1, 1⟩ ⟨5, "x", "y", "z", 0, 2, 1⟩ 3 7 hnd rfl
  exact ⟨hnd, h.1, h.2⟩

end AegisIgnis
